import Mathlib

/-!
Shallow embedding of the part-2 joltage solver of `src/day10/src/main.rs`
(repository `ntwrknrd/aoc-2025`, Advent of Code 2025 day 10).

Modelling conventions:
* Rust `i32` press counts, targets and totals are modelled as `Int`; the
  constant `2147483647` (`i32::MAX`) appears literally where the source uses
  it as the running-minimum sentinel.  No intermediate value in any statement
  proved below exceeds the `i32` range on the inputs considered, so the
  unbounded model agrees with the machine arithmetic there.
* Rust `f64` is modelled as `ℚ` with exact arithmetic; the numeric literals
  `1e-6` and `1e-9` of the source become `1/1000000` and `1/1000000000`.
* nalgebra's `lu().solve()` and `svd().solve()` are both modelled by
  `solveLin`, an exact Gaussian elimination over `ℚ` that succeeds exactly
  when the linear system has a unique solution; a singular or inconsistent
  system yields `none`, matching the paths on which the Rust code discards
  the current subset.
-/

namespace Day10

/-- The parsed `Machine` record of `main.rs` (`struct Machine`).  `target` is
the part-1 light pattern and plays no role in part 2. -/
structure Machine where
  target : List Bool
  buttons : List (List Int)
  joltages : List Int

/-- Entry `a[i][j]` of a row-major rational matrix, `0` outside the stored
rows/columns (the Rust code never actually indexes out of range on the calls
made by the solver). -/
def ent (a : List (List ℚ)) (i j : Nat) : ℚ := (a.getD i []).getD j 0

/-- The incidence matrix built in `find_min_joltage_presses`:
`full_a[counter][button] = 1.0` iff the button's index list contains the
counter, else `0.0` (the source initialises the row with zeros and sets the
containing entries to one, which yields exactly this row). -/
def fullA (m : Machine) : List (List ℚ) :=
  (List.range m.joltages.length).map fun c : Nat =>
    m.buttons.map fun btn => if (c : Int) ∈ btn then (1 : ℚ) else 0

/-- The right-hand side `b`: the joltages as floats. -/
def bVec (m : Machine) : List ℚ := m.joltages.map fun j : Int => (j : ℚ)

/-- `m.joltages.iter().max().unwrap_or(&100)`. -/
def maxJolt (m : Machine) : Int := (m.joltages.max?).getD 100

/-- `combinations`' recursive worker `generate`: `genComb n start r` lists the
fillings of the remaining `r` slots with indices from `start` upward.  The
Rust loop bound `start..=(n - (k - idx))` becomes the range of length
`n - r - start` starting at `start`; natural subtraction makes the range
empty exactly where the Rust bound would leave no room (on the arguments
reachable from `combinations` the `usize` subtraction never underflows). -/
def genComb (n : Nat) : Nat → Nat → List (List Nat)
  | _, 0 => [[]]
  | start, r + 1 =>
    (List.range' start (n - r - start)).flatMap fun i =>
      (genComb n (i + 1) r).map fun c => i :: c

/-- `combinations(n, k)`: all k-combinations of `{0, …, n-1}`. -/
def combinations (n k : Nat) : List (List Nat) :=
  if k > n then [] else genComb n 0 k

/-- `is_nonneg_integer`: accept a rational within `1e-6` of a non-negative
integer.  Rust's `f64::round` rounds halves away from zero while Mathlib's
`round` rounds halves up; the two can only disagree at fractional part
exactly `1/2`, where the subsequent `1e-6` distance test rejects the value
under either convention, so the results agree. -/
def isNonnegInteger (x : ℚ) : Option Int :=
  if x < -(1 / 1000000) then none
  else
    let rounded : Int := round x
    if rounded < 0 then none
    else if |x - (rounded : ℚ)| > 1 / 1000000 then none
    else some rounded

/-- The per-counter sum in `verify_solution`: presses of the subset members
whose incidence list contains the counter. -/
def pressSum (buttons : List (List Int)) (counter : Nat) (subset : List Nat)
    (presses : List Int) : Int :=
  ((subset.zip presses).map fun sp =>
    if (counter : Int) ∈ buttons.getD sp.1 [] then sp.2 else 0).sum

/-- The `enumerate` loop of `verify_solution`, with the running counter index
made explicit. -/
def verifyFrom (buttons : List (List Int)) (subset : List Nat) (presses : List Int) :
    Nat → List Int → Bool
  | _, [] => true
  | c, t :: rest =>
    (pressSum buttons c subset presses == t) && verifyFrom buttons subset presses (c + 1) rest

/-- `verify_solution`: exact integer re-check of a candidate. -/
def verifySolution (joltages : List Int) (buttons : List (List Int)) (subset : List Nat)
    (presses : List Int) : Bool :=
  verifyFrom buttons subset presses 0 joltages

/-- Row `counter` of the integer incidence matrix of the chosen subset dotted
with the press vector: `(A_subset · x)_counter` over `Int`. -/
def rowDotInt (buttons : List (List Int)) (counter : Nat) (subset : List Nat)
    (x : List Int) : Int :=
  ((subset.zip x).map fun sp =>
    (if (counter : Int) ∈ buttons.getD sp.1 [] then (1 : Int) else 0) * sp.2).sum

/-- First row with a non-zero leading coefficient, together with the other
rows (partial pivoting of the exact elimination). -/
def findPivot : List (List ℚ) → Option (List ℚ × List (List ℚ))
  | [] => none
  | r :: rest =>
    if r.headI ≠ 0 then some (r, rest)
    else
      match findPivot rest with
      | some (p, others) => some (p, r :: others)
      | none => none

/-- Subtract the multiple of the pivot row that clears the leading entry of
`r`, and drop that leading entry. -/
def reduceRow (p r : List ℚ) : List ℚ :=
  match p, r with
  | p0 :: ptail, r0 :: rtail => List.zipWith (fun x y => y - r0 / p0 * x) ptail rtail
  | _, _ => []

/-- Exact rational model of the floating linear solves (`lu().solve()` and
`svd().solve()`): `solveLin n rows` solves the system whose augmented rows
are `rows` (each row is `n` coefficients followed by the right-hand side),
returning the unique solution or `none` when the system is singular or
inconsistent. -/
def solveLin : Nat → List (List ℚ) → Option (List ℚ)
  | 0, rows => if rows.all (fun r => decide (r.headI = 0)) then some [] else none
  | n + 1, rows =>
    match findPivot rows with
    | none => none
    | some (p, others) =>
      match solveLin n (others.map (reduceRow p)) with
      | none => none
      | some xs =>
        match p with
        | p0 :: ptail =>
          some (((ptail.getD n 0 - (List.zipWith (fun a x => a * x) ptail xs).sum) / p0) :: xs)
        | [] => none

/-- One iteration of the feasible-range loop of `solve_one_free_var`
(lines 210–220): tighten `t_max` when `coef[i] > 1e-9`, tighten `t_min` when
`coef[i] < -1e-9`, fail when the coefficient is within tolerance of zero but
`x0[i] < -1e-9`. -/
def tRangeStep (x0 coef : List ℚ) (st : ℚ × ℚ) (i : Nat) : Option (ℚ × ℚ) :=
  if coef.getD i 0 > 1 / 1000000000 then
    some (st.1, min st.2 (x0.getD i 0 / coef.getD i 0))
  else if coef.getD i 0 < -(1 / 1000000000) then
    some (max st.1 (x0.getD i 0 / coef.getD i 0), st.2)
  else if x0.getD i 0 < -(1 / 1000000000) then none
  else some st

/-- The whole feasible-range loop, starting from `t_min = 0`,
`t_max = max_val`. -/
def tRange (x0 coef : List ℚ) (nc : Nat) (maxVal : Int) : Option (ℚ × ℚ) :=
  (List.range nc).foldlM (tRangeStep x0 coef) ((0 : ℚ), (maxVal : ℚ))

/-- The final loop of `solve_one_free_var`: place each basic variable
`x0[pos] - coef[pos]·t`, requiring it to be a non-negative integer, into the
solution vector at its subset position while accumulating the total. -/
def placeBasics (x0 coef : List ℚ) (t : Int) :
    List (Nat × Nat) → List Int × Int → Option (List Int × Int)
  | [], st => some st
  | pz :: rest, st =>
    match isNonnegInteger (x0.getD pz.1 0 - coef.getD pz.1 0 * (t : ℚ)) with
    | none => none
    | some v => placeBasics x0 coef t rest (st.1.set pz.2 v, st.2 + v)

/-- Tail of `solve_one_free_var` once the optimal integer `t` has been
chosen: reject a negative `t`, otherwise place the free variable and the
basic variables and return `(total, solution)`. -/
def finishFreeVar (x0 coef : List ℚ) (subsetLen freeIdx : Nat)
    (basicIdx : List Nat) (optT : Int) : Option (Int × List Int) :=
  if optT < 0 then none
  else
    match placeBasics x0 coef optT basicIdx.enum
        ((List.replicate subsetLen 0).set freeIdx optT, optT) with
    | none => none
    | some (sol, total) => some (total, sol)

/-- `solve_one_free_var`: parametrise the solutions of an underdetermined
system with one extra column as `x_basic(t) = x0 - coef·t`, pick the optimal
integer `t`, and build the candidate `(total, solution)`. -/
def solveOneFreeVar (fa : List (List ℚ)) (b : List ℚ) (subset : List Nat)
    (freeIdx : Nat) (maxVal : Int) : Option (Int × List Int) :=
  let nc := b.length
  let basicIdx := (List.range subset.length).filter fun i => i ≠ freeIdx
  let rowsX0 := (List.range nc).map fun i =>
    (basicIdx.map fun j => ent fa i (subset.getD j 0)) ++ [b.getD i 0]
  match solveLin nc rowsX0 with
  | none => none
  | some x0 =>
    let rowsCoef := (List.range nc).map fun i =>
      (basicIdx.map fun j => ent fa i (subset.getD j 0)) ++ [ent fa i (subset.getD freeIdx 0)]
    match solveLin nc rowsCoef with
    | none => none
    | some coef =>
      match tRange x0 coef nc maxVal with
      | none => none
      | some (tmin, tmax) =>
        if tmin > tmax + 1 / 1000000000 then none
        else
          let slope : ℚ := 1 - coef.sum
          let optT0 : Int :=
            if slope > 1 / 1000000000 then ⌈tmin⌉
            else if slope < -(1 / 1000000000) then ⌊tmax⌋
            else ⌈tmin⌉
          let optT : Int := min (max optT0 ⌈tmin⌉) ⌊tmax⌋
          finishFreeVar x0 coef subset.length freeIdx basicIdx optT

/-- The `sub_subset` of the two-free-variable case: the subset with position
`f1` removed. -/
def subSubset (subset : List Nat) (f1 : Nat) : List Nat :=
  ((List.range subset.length).filter fun i => i ≠ f1).map fun i => subset.getD i 0

/-- The adjusted right-hand side `b_adj[i] = b[i] - A[i][subset[f1]]·fv1`. -/
def bAdj (fa : List (List ℚ)) (b : List ℚ) (subset : List Nat) (f1 : Nat)
    (fv1 : Int) : List ℚ :=
  (List.range b.length).map fun i => b.getD i 0 - ent fa i (subset.getD f1 0) * (fv1 : ℚ)

/-- Rebuild the full press vector from the sub-solution by inserting `fv1` at
position `f1`: the Rust push loop keeps a running index into `sub_solution`
that equals `i` before position `f1` and `i - 1` after it. -/
def insertFv (ssLen : Nat) (f1 : Nat) (fv1 : Int) (subSol : List Int) : List Int :=
  (List.range ssLen).map fun i =>
    if i = f1 then fv1 else subSol.getD (if i < f1 then i else i - 1) 0

/-- The integers `0, 1, …, cap` (empty when `cap < 0`), the values of the
Rust range `0..=cap`. -/
def intRange0 (cap : Int) : List Int :=
  (List.range (cap + 1).toNat).map fun i : Nat => (i : Int)

/-- The candidate produced by one `free_idx` trial of the one-free-variable
branch: the solved total if the solution verifies, else `none`. -/
def d1Cand (fa : List (List ℚ)) (b : List ℚ) (subset : List Nat) (maxVal : Int)
    (joltages : List Int) (buttons : List (List Int)) (freeIdx : Nat) : Option Int :=
  match solveOneFreeVar fa b subset freeIdx maxVal with
  | some (total, solution) =>
    if verifySolution joltages buttons subset solution then some total else none
  | none => none

/-- The candidate produced by one `(f1, f2, fv1)` trial of the
two-free-variable branch: solve the residual one-free-variable system on
`sub_subset` with right-hand side `b_adj`, rebuild the full vector, and keep
`sub_total + fv1` if it verifies. -/
def d2Cand (fa : List (List ℚ)) (b : List ℚ) (subset : List Nat) (maxVal : Int)
    (joltages : List Int) (buttons : List (List Int)) (f1 f2 : Nat) (fv1 : Int) :
    Option Int :=
  match solveOneFreeVar fa (bAdj fa b subset f1 fv1) (subSubset subset f1) (f2 - 1) maxVal with
  | some (subTotal, subSol) =>
    if verifySolution joltages buttons subset (insertFv subset.length f1 fv1 subSol) then
      some (subTotal + fv1)
    else none
  | none => none

/-- The running-minimum update shared by every search loop of the source:
fold a trial's optional candidate into `best`. -/
def minStep (g : α → Option Int) (best : Int) (a : α) : Int :=
  match g a with
  | some c => min best c
  | none => best

/-- `solve_with_free_vars`: dimension guard, then the `num_free == 1` or
`num_free == 2` search, `none` when `best` is still `i32::MAX`.  The `usize`
difference `subset.len() - num_free` is taken over `Int` (on every reachable
call it is non-negative, and a wrapped negative difference compares unequal
to `num_counters` exactly as the wrapped `usize` would). -/
def solveWithFreeVars (fa : List (List ℚ)) (b : List ℚ) (subset : List Nat)
    (numFree : Nat) (maxVal : Int) (joltages : List Int) (buttons : List (List Int)) :
    Option Int :=
  if (subset.length : Int) - (numFree : Int) ≠ (b.length : Int) then none
  else
    let best : Int :=
      if numFree = 1 then
        (List.range subset.length).foldl
          (minStep (d1Cand fa b subset maxVal joltages buttons)) 2147483647
      else if numFree = 2 then
        (List.range subset.length).foldl
          (fun best f1 =>
            (List.range' (f1 + 1) (subset.length - (f1 + 1))).foldl
              (fun best f2 =>
                (intRange0 (min maxVal 100)).foldl
                  (minStep (d2Cand fa b subset maxVal joltages buttons f1 f2)) best)
              best)
          2147483647
      else 2147483647
    if best = 2147483647 then none else some best

/-- One row of the exact re-check of the determined/overdetermined branch:
press counts of subset members whose (floating) matrix entry exceeds `0.5`. -/
def lineSum (subset : List Nat) (sol : List Int) (row : List ℚ) : Int :=
  ((subset.zip sol).map fun sp => if row.getD sp.1 0 > 1 / 2 then sp.2 else 0).sum

/-- The `double-check Ax = b` loop of the determined branch, walking the
matrix rows and the joltages in step. -/
def exactCheckGo (subset : List Nat) (sol : List Int) :
    List (List ℚ) → List Int → Bool
  | row :: rows, t :: ts => (lineSum subset sol row == t) && exactCheckGo subset sol rows ts
  | _, _ => true

/-- The `collect` of `(0..size).map(|j| is_nonneg_integer(x[j]))`: all
components must be accepted. -/
def collectNonneg : List ℚ → Option (List Int)
  | [] => some []
  | q :: rest =>
    match isNonnegInteger q, collectNonneg rest with
    | some v, some vs => some (v :: vs)
    | _, _ => none

/-- The determined/overdetermined branch of `find_min_joltage_presses`
(`size ≤ num_counters`): least-squares solve, integrality/non-negativity
screen, then the exact integer re-check; returns the accepted press vector. -/
def directSolve (fa : List (List ℚ)) (b : List ℚ) (joltages : List Int)
    (subset : List Nat) : Option (List Int) :=
  match solveLin subset.length ((List.range b.length).map fun i =>
      (subset.map fun bi => ent fa i bi) ++ [b.getD i 0]) with
  | none => none
  | some x =>
    match collectNonneg ((List.range subset.length).map fun j => x.getD j 0) with
    | none => none
    | some solution =>
      if exactCheckGo subset solution fa joltages then some solution else none

/-- The candidate total contributed by one subset of the search: the direct
branch for `size ≤ num_counters`, otherwise the free-variable branch. -/
def candidateFor (m : Machine) (fa : List (List ℚ)) (b : List ℚ) (mj : Int)
    (size : Nat) (subset : List Nat) : Option Int :=
  if size ≤ m.joltages.length then
    (directSolve fa b m.joltages subset).map fun sol => sol.sum
  else
    solveWithFreeVars fa b subset (size - m.joltages.length) mj m.joltages m.buttons

/-- `find_min_joltage_presses`: degenerate machines return `0`; otherwise the
bounded search over subset sizes `1..=min(num_counters + 2, num_buttons)`
folds every candidate into the running minimum, and `-1` stands for a final
`best` still equal to `i32::MAX`. -/
def findMinJoltagePresses (m : Machine) : Int :=
  if m.buttons.length = 0 ∨ m.joltages.length = 0 then 0
  else
    let best :=
      (List.range' 1 (min (m.joltages.length + 2) m.buttons.length)).foldl
        (fun best size =>
          (combinations m.buttons.length size).foldl
            (minStep (candidateFor m (fullA m) (bVec m) (maxJolt m) size)) best)
        2147483647
    if best = 2147483647 then -1 else best

/-- The ratios `x0[i]/coef[i]` over the indices of `l` whose coefficient
exceeds the `1e-9` tolerance: the values that tighten `t_max`. -/
def ratioUps (x0 coef : List ℚ) (l : List Nat) : List ℚ :=
  (l.filter fun i => decide (coef.getD i 0 > 1 / 1000000000)).map fun i =>
    x0.getD i 0 / coef.getD i 0

/-- The ratios `x0[i]/coef[i]` over the indices of `l` whose coefficient is
below `-1e-9`: the values that tighten `t_min`. -/
def ratioDowns (x0 coef : List ℚ) (l : List Nat) : List ℚ :=
  (l.filter fun i => decide (coef.getD i 0 < -(1 / 1000000000))).map fun i =>
    x0.getD i 0 / coef.getD i 0

/-- A press vector `x` on `subset` that the solver accepts — i.e. lets
compete for the machine's minimum: produced by the determined/overdetermined
branch (whose exact integer re-check is built in), or produced by the one- or
two-free-variable branch and then passed the exact verifier. -/
def acceptedSolution (m : Machine) (subset : List Nat) (x : List Int) : Prop :=
  directSolve (fullA m) (bVec m) m.joltages subset = some x
  ∨ (∃ freeIdx total,
      solveOneFreeVar (fullA m) (bVec m) subset freeIdx (maxJolt m) = some (total, x) ∧
      verifySolution m.joltages m.buttons subset x = true)
  ∨ (∃ f1 f2 fv1 subTotal subSol,
      0 ≤ fv1 ∧
      solveOneFreeVar (fullA m) (bAdj (fullA m) (bVec m) subset f1 fv1)
        (subSubset subset f1) (f2 - 1) (maxJolt m) = some (subTotal, subSol) ∧
      x = insertFv subset.length f1 fv1 subSol ∧
      verifySolution m.joltages m.buttons subset x = true)

/-! ### Generic facts about the running-minimum folds -/

/-- Folding candidates into a running minimum never increases it. -/
theorem minStep_foldl_le_init (g : α → Option Int) (l : List α) (init : Int) :
    l.foldl (minStep g) init ≤ init := by
  induction l generalizing init with
  | nil => simp
  | cons a t ih =>
    simp only [List.foldl_cons]
    refine le_trans (ih _) ?h
    unfold minStep
    split
    · exact min_le_left _ _
    · exact le_refl _

/-- The running minimum is bounded by every candidate encountered. -/
theorem minStep_foldl_le_of_mem (g : α → Option Int) {l : List α} {a : α} {c : Int}
    (ha : a ∈ l) (hc : g a = some c) (init : Int) :
    l.foldl (minStep g) init ≤ c := by
  induction l generalizing init with
  | nil => cases ha
  | cons x t ih =>
    simp only [List.foldl_cons]
    rcases List.mem_cons.1 ha with rfl | hm
    · refine le_trans (minStep_foldl_le_init g t _) ?h
      unfold minStep
      rw [hc]
      exact min_le_right _ _
    · exact ih hm _

/-- A lower bound of the start value and of every candidate is a lower bound
of the final running minimum. -/
theorem le_minStep_foldl (g : α → Option Int) (v : Int) :
    ∀ (l : List α) (init : Int), v ≤ init →
      (∀ a ∈ l, ∀ c, g a = some c → v ≤ c) →
      v ≤ l.foldl (minStep g) init := by
  intro l
  induction l with
  | nil =>
    intro init h0 _
    simpa using h0
  | cons x t ih =>
    intro init h0 h
    simp only [List.foldl_cons]
    apply ih
    · unfold minStep
      split
      · next c heq => exact le_min h0 (h x (List.mem_cons_self x t) c heq)
      · exact h0
    · intro a ha c hc
      exact h a (List.mem_cons_of_mem _ ha) c hc

/-- The final running minimum is the start value or one of the candidates. -/
theorem minStep_foldl_cases (g : α → Option Int) :
    ∀ (l : List α) (init : Int),
      l.foldl (minStep g) init = init ∨
        ∃ a ∈ l, g a = some (l.foldl (minStep g) init) := by
  intro l
  induction l with
  | nil =>
    intro init
    exact Or.inl rfl
  | cons x t ih =>
    intro init
    simp only [List.foldl_cons]
    rcases ih (minStep g init x) with h | ⟨a, ha, hc⟩
    · rw [h]
      unfold minStep
      split
      · next c heq =>
        rcases le_total init c with hle | hle
        · exact Or.inl (min_eq_left hle)
        · exact Or.inr ⟨x, List.mem_cons_self x t, by rw [heq, min_eq_right hle]⟩
      · exact Or.inl rfl
    · exact Or.inr ⟨a, List.mem_cons_of_mem _ ha, hc⟩

/-- A fold preserves any invariant that each step preserves. -/
theorem foldl_inv {P : β → Prop} (f : β → α → β) :
    ∀ (l : List α) (init : β), P init →
      (∀ b a, a ∈ l → P b → P (f b a)) → P (l.foldl f init) := by
  intro l
  induction l with
  | nil =>
    intro init h _
    simpa using h
  | cons x t ih =>
    intro init h hstep
    simp only [List.foldl_cons]
    exact ih _ (hstep _ _ (List.mem_cons_self x t) h)
      (fun b a ha hb => hstep b a (List.mem_cons_of_mem _ ha) hb)

/-- Running minima over non-negative candidates stay non-negative. -/
theorem minStep_foldl_nonneg (g : α → Option Int) (l : List α) (init : Int)
    (h0 : 0 ≤ init) (hg : ∀ a ∈ l, ∀ c, g a = some c → 0 ≤ c) :
    0 ≤ l.foldl (minStep g) init :=
  foldl_inv _ l init h0 (fun b a ha hb => by
    unfold minStep
    split
    · next c heq => exact le_min hb (hg a ha c heq)
    · exact hb)

/-- Flattening a nested running-minimum fold into a fold over the product of
the two index lists. -/
theorem foldl_minStep_flatMap (l1 : List α) (l2 : α → List β) (g : α → β → Option Int) :
    ∀ init : Int,
      l1.foldl (fun best a => (l2 a).foldl (minStep (g a)) best) init =
        (l1.flatMap fun a => (l2 a).map (Prod.mk a)).foldl
          (minStep fun p => g p.1 p.2) init := by
  induction l1 with
  | nil =>
    intro init
    rfl
  | cons x t ih =>
    intro init
    simp only [List.foldl_cons, List.flatMap_cons, List.foldl_append]
    rw [ih]
    congr 1
    rw [List.foldl_map]
    rfl

/-- Reading below the length is reading the element. -/
theorem getD_of_lt (l : List α) (d : α) (n : Nat) (h : n < l.length) :
    l.getD n d = l[n] := by
  rw [List.getD_eq_getElem?_getD, List.getElem?_eq_getElem h]
  rfl

/-- Reading at or beyond the length yields the default. -/
theorem getD_of_ge (l : List α) (d : α) (n : Nat) (h : l.length ≤ n) :
    l.getD n d = d := by
  rw [List.getD_eq_getElem?_getD, List.getElem?_eq_none h]
  rfl

/-- A fold whose step ignores the element is constant. -/
theorem foldl_const (l : List α) (init : β) : l.foldl (fun b _ => b) init = init := by
  induction l with
  | nil => rfl
  | cons x t ih => simp only [List.foldl_cons]; exact ih

/-! ### Non-negativity of every accepted component and total -/

/-- Values accepted by `is_nonneg_integer` are non-negative. -/
theorem isNonnegInteger_nonneg {q : ℚ} {r : Int} (h : isNonnegInteger q = some r) :
    0 ≤ r := by
  simp only [isNonnegInteger] at h
  split at h
  · cases h
  · split at h
    · cases h
    · split at h
      · cases h
      · injection h with h2
        omega

/-- Every component accepted by the `collect` screen is non-negative. -/
theorem collectNonneg_nonneg : ∀ {l : List ℚ} {out : List Int},
    collectNonneg l = some out → ∀ v ∈ out, 0 ≤ v := by
  intro l
  induction l with
  | nil =>
    intro out h v hv
    cases h
    cases hv
  | cons q t ih =>
    intro out h v hv
    unfold collectNonneg at h
    split at h
    · next v0 vs hq hrest =>
      cases h
      rcases List.mem_cons.1 hv with rfl | hm
      · exact isNonnegInteger_nonneg hq
      · exact ih hrest v hm
    · cases h

/-- Reading a non-negative list at any position (default `0`) is
non-negative. -/
theorem nonneg_getD {l : List Int} (h : ∀ v ∈ l, 0 ≤ v) (k : Nat) :
    0 ≤ l.getD k 0 := by
  rw [List.getD_eq_getElem?_getD]
  rcases h2 : l[k]? with _ | v
  · simp
  · simp only [Option.getD_some]
    exact h v (List.getElem?_mem h2)

/-- `placeBasics` keeps every stored component and the running total
non-negative. -/
theorem placeBasics_nonneg (x0 coef : List ℚ) (t : Int) :
    ∀ (l : List (Nat × Nat)) (st out : List Int × Int),
      placeBasics x0 coef t l st = some out →
      (∀ v ∈ st.1, 0 ≤ v) → 0 ≤ st.2 →
      (∀ v ∈ out.1, 0 ≤ v) ∧ 0 ≤ out.2 := by
  intro l
  induction l with
  | nil =>
    intro st out h h1 h2
    cases h
    exact ⟨h1, h2⟩
  | cons pz rest ih =>
    intro st out h h1 h2
    unfold placeBasics at h
    split at h
    · cases h
    · next v hv =>
      refine ih _ _ h ?ha ?hb
      · intro w hw
        rcases List.mem_or_eq_of_mem_set hw with hmem | rfl
        · exact h1 w hmem
        · exact isNonnegInteger_nonneg hv
      · exact add_nonneg h2 (isNonnegInteger_nonneg hv)

/-- The tail of `solve_one_free_var` only succeeds with a non-negative total
and componentwise non-negative press vector. -/
theorem finishFreeVar_nonneg {x0 coef : List ℚ} {subsetLen freeIdx : Nat}
    {basicIdx : List Nat} {optT total : Int} {sol : List Int}
    (h : finishFreeVar x0 coef subsetLen freeIdx basicIdx optT = some (total, sol)) :
    0 ≤ total ∧ ∀ v ∈ sol, 0 ≤ v := by
  unfold finishFreeVar at h
  split at h
  · cases h
  · next hneg =>
    split at h
    · cases h
    · next sol0 total0 hpb =>
      simp only [Option.some.injEq, Prod.mk.injEq] at h
      obtain ⟨rfl, rfl⟩ := h
      have hres := placeBasics_nonneg x0 coef optT _ _ _ hpb ?hc1 ?hc2
      case hc1 =>
        intro v hv
        rcases List.mem_or_eq_of_mem_set hv with hmem | rfl
        · rw [List.eq_of_mem_replicate hmem]
        · omega
      case hc2 =>
        dsimp only
        omega
      exact ⟨hres.2, hres.1⟩

/-- A successful `solve_one_free_var` has a non-negative total and a
componentwise non-negative press vector. -/
theorem solveOneFreeVar_nonneg {fa : List (List ℚ)} {b : List ℚ} {subset : List Nat}
    {freeIdx : Nat} {maxVal total : Int} {sol : List Int}
    (h : solveOneFreeVar fa b subset freeIdx maxVal = some (total, sol)) :
    0 ≤ total ∧ ∀ v ∈ sol, 0 ≤ v := by
  simp only [solveOneFreeVar] at h
  split at h
  · cases h
  · split at h
    · cases h
    · split at h
      · cases h
      · next tmin tmax htr =>
        by_cases hcond : tmin > tmax + 1 / 1000000000
        · rw [if_pos hcond] at h
          cases h
        · rw [if_neg hcond] at h
          exact finishFreeVar_nonneg h

/-- A one-free-variable trial candidate is non-negative. -/
theorem d1Cand_nonneg {fa : List (List ℚ)} {b : List ℚ} {subset : List Nat}
    {maxVal : Int} {joltages : List Int} {buttons : List (List Int)}
    {freeIdx : Nat} {c : Int}
    (h : d1Cand fa b subset maxVal joltages buttons freeIdx = some c) : 0 ≤ c := by
  unfold d1Cand at h
  split at h
  · next total solution heq =>
    split at h
    · injection h with h2
      subst h2
      exact (solveOneFreeVar_nonneg heq).1
    · cases h
  · cases h

/-- A two-free-variable trial candidate with a non-negative enumerated value
is non-negative. -/
theorem d2Cand_nonneg {fa : List (List ℚ)} {b : List ℚ} {subset : List Nat}
    {maxVal : Int} {joltages : List Int} {buttons : List (List Int)}
    {f1 f2 : Nat} {fv1 c : Int} (hfv : 0 ≤ fv1)
    (h : d2Cand fa b subset maxVal joltages buttons f1 f2 fv1 = some c) : 0 ≤ c := by
  unfold d2Cand at h
  split at h
  · next subTotal subSol heq =>
    split at h
    · injection h with h2
      subst h2
      exact add_nonneg (solveOneFreeVar_nonneg heq).1 hfv
    · cases h
  · cases h

/-- Members of `0, 1, …, cap` are exactly the integers of the Rust range
`0..=cap`. -/
theorem mem_intRange0 {cap a : Int} : a ∈ intRange0 cap ↔ 0 ≤ a ∧ a ≤ cap := by
  unfold intRange0
  constructor
  · intro h
    obtain ⟨i, hi, rfl⟩ := List.mem_map.1 h
    have hi2 := List.mem_range.1 hi
    omega
  · intro h
    exact List.mem_map.2 ⟨a.toNat, List.mem_range.2 (by omega), by omega⟩

/-- Inversion of the `i32::MAX` sentinel test that ends both search drivers:
a `some` result is the fold value, which moreover differs from the
sentinel. -/
theorem sentinel_eq {B v : Int}
    (h : (if B = 2147483647 then none else some B) = some v) :
    v = B ∧ B ≠ 2147483647 := by
  split at h
  · cases h
  · next hne =>
    injection h with h2
    exact ⟨h2.symm, hne⟩

/-- A value returned by `solve_with_free_vars` is non-negative. -/
theorem solveWithFreeVars_nonneg {fa : List (List ℚ)} {b : List ℚ} {subset : List Nat}
    {numFree : Nat} {maxVal : Int} {joltages : List Int} {buttons : List (List Int)}
    {v : Int}
    (h : solveWithFreeVars fa b subset numFree maxVal joltages buttons = some v) :
    0 ≤ v := by
  unfold solveWithFreeVars at h
  split at h
  · cases h
  · split at h
    · obtain ⟨rfl, -⟩ := sentinel_eq h
      exact minStep_foldl_nonneg _ _ _ (by omega)
        (fun a _ c hc => d1Cand_nonneg hc)
    · split at h
      · obtain ⟨rfl, -⟩ := sentinel_eq h
        refine foldl_inv _ _ _ (by omega) ?step1
        intro best f1 _ hb
        refine foldl_inv _ _ _ hb ?step2
        intro best2 f2 _ hb2
        refine minStep_foldl_nonneg _ _ _ hb2 ?step3
        intro fv1 hfv c hc
        exact d2Cand_nonneg (mem_intRange0.1 hfv).1 hc
      · obtain ⟨rfl, hne⟩ := sentinel_eq h
        exact absurd rfl hne

/-- A press vector accepted by the determined/overdetermined branch is
componentwise non-negative. -/
theorem directSolve_nonneg {fa : List (List ℚ)} {b : List ℚ} {joltages : List Int}
    {subset : List Nat} {sol : List Int}
    (h : directSolve fa b joltages subset = some sol) : ∀ v ∈ sol, 0 ≤ v := by
  unfold directSolve at h
  split at h
  · cases h
  · split at h
    · cases h
    · next solution hcol =>
      split at h
      · injection h with h2
        subst h2
        exact collectNonneg_nonneg hcol
      · cases h

/-- Every candidate total produced by the subset search is non-negative. -/
theorem candidateFor_nonneg {m : Machine} {fa : List (List ℚ)} {b : List ℚ}
    {mj : Int} {size : Nat} {subset : List Nat} {c : Int}
    (h : candidateFor m fa b mj size subset = some c) : 0 ≤ c := by
  unfold candidateFor at h
  split at h
  · rcases hds : directSolve fa b m.joltages subset with _ | sol
    · rw [hds] at h
      cases h
    · rw [hds] at h
      injection h with h2
      subst h2
      exact List.sum_nonneg (directSolve_nonneg hds)
  · exact solveWithFreeVars_nonneg h

/-! ### Claim C7 -/

/-- C7: for every machine with zero buttons or zero counters (empty joltage
list), the part-2 solver returns `0`. -/
theorem degenerate_machine_returns_zero (m : Machine)
    (h : m.buttons = [] ∨ m.joltages = []) : findMinJoltagePresses m = 0 := by
  unfold findMinJoltagePresses
  rcases h with h | h
  · rw [if_pos (Or.inl (by rw [h]; rfl))]
  · rw [if_pos (Or.inr (by rw [h]; rfl))]

/-- Witness for C7: the empty machine. -/
theorem degenerate_machine_returns_zero_witness :
    findMinJoltagePresses ⟨[], [], []⟩ = 0 :=
  degenerate_machine_returns_zero ⟨[], [], []⟩ (Or.inl rfl)

/-! ### Claim C8 -/

/-- C8: for every `n`, `combinations n 0` returns exactly one combination,
the empty one, so the enumerator is total at `k = 0` and a caller iterating
size 0 would obtain the empty button subset once. -/
theorem combinations_k_zero (n : Nat) : combinations n 0 = [[]] := by
  unfold combinations
  rw [if_neg (by omega)]
  rfl

/-! ### Claim C9 -/

/-- C9: a call with `num_free` not equal to 1 or 2, or with
`subset.len() - num_free` different from the counter count, makes
`solve_with_free_vars` return `None` — no candidate, no error, no partial
state change; in particular `d ≥ 3` is silently unsupported. -/
theorem unsupported_free_vars_give_none (fa : List (List ℚ)) (b : List ℚ)
    (subset : List Nat) (numFree : Nat) (maxVal : Int) (joltages : List Int)
    (buttons : List (List Int))
    (h : (numFree ≠ 1 ∧ numFree ≠ 2) ∨
      (subset.length : Int) - (numFree : Int) ≠ (b.length : Int)) :
    solveWithFreeVars fa b subset numFree maxVal joltages buttons = none := by
  unfold solveWithFreeVars
  rcases h with ⟨h1, h2⟩ | hg
  · by_cases hg2 : (subset.length : Int) - (numFree : Int) ≠ (b.length : Int)
    · rw [if_pos hg2]
    · rw [if_neg hg2, if_neg h1, if_neg h2]
      rfl
  · rw [if_pos hg]

/-! ### Combination enumeration (claim C4) -/

/-- A strictly increasing list of values above `i` and below `n` forces
`i + length < n`. -/
theorem sorted_head_bound {n : Nat} :
    ∀ (c : List Nat) (i : Nat), i < n → List.Pairwise (· < ·) c →
      (∀ x ∈ c, x < n) → (∀ x ∈ c, i < x) → i + c.length < n := by
  intro c
  induction c with
  | nil =>
    intro i hi _ _ _
    simpa using hi
  | cons j rest ih =>
    intro i hi hpw hlt hgt
    have hij : i < j := hgt j (List.mem_cons_self j rest)
    have hj : j < n := hlt j (List.mem_cons_self j rest)
    obtain ⟨hhead, htail⟩ := List.pairwise_cons.1 hpw
    have hrec := ih j hj htail (fun x hx => hlt x (List.mem_cons_of_mem _ hx)) hhead
    simp only [List.length_cons]
    omega

/-- Membership in the recursive enumeration: exactly the strictly increasing
lists of the right length with entries in `[start, n)`. -/
theorem mem_genComb (n : Nat) :
    ∀ (r start : Nat) (c : List Nat),
      c ∈ genComb n start r ↔
        c.length = r ∧ List.Pairwise (· < ·) c ∧ (∀ x ∈ c, start ≤ x) ∧
          ∀ x ∈ c, x < n := by
  intro r
  induction r with
  | zero =>
    intro start c
    constructor
    · intro h
      simp only [genComb, List.mem_singleton] at h
      subst h
      simp
    · rintro ⟨hlen, -, -, -⟩
      have hc : c = [] := List.length_eq_zero.1 hlen
      subst hc
      simp [genComb]
  | succ r ih =>
    intro start c
    simp only [genComb, List.mem_flatMap, List.mem_map]
    constructor
    · rintro ⟨i, hi, c', hc', rfl⟩
      have hi2 := List.mem_range'_1.1 hi
      obtain ⟨hlen, hpw, hge, hlt⟩ := (ih (i + 1) c').1 hc'
      refine ⟨by simp [hlen], ?pw, ?ge, ?lt⟩
      · exact List.pairwise_cons.2 ⟨fun x hx => by have := hge x hx; omega, hpw⟩
      · intro x hx
        rcases List.mem_cons.1 hx with rfl | hx2
        · omega
        · have := hge x hx2
          omega
      · intro x hx
        rcases List.mem_cons.1 hx with rfl | hx2
        · omega
        · exact hlt x hx2
    · rintro ⟨hlen, hpw, hge, hlt⟩
      cases c with
      | nil => simp at hlen
      | cons i c' =>
        have hclen : c'.length = r := by simpa using hlen
        have hic : i < n := hlt i (List.mem_cons_self i c')
        obtain ⟨hhead, htail⟩ := List.pairwise_cons.1 hpw
        have hbound : i + c'.length < n :=
          sorted_head_bound c' i hic htail
            (fun x hx => hlt x (List.mem_cons_of_mem _ hx)) hhead
        refine ⟨i, List.mem_range'_1.2 ⟨hge i (List.mem_cons_self i c'), by omega⟩,
          c', (ih (i + 1) c').2 ⟨hclen, htail,
            fun x hx => by have := hhead x hx; omega,
            fun x hx => hlt x (List.mem_cons_of_mem _ hx)⟩, rfl⟩

/-- The lexicographic strict order on lists of naturals is irreflexive. -/
theorem lex_irrefl_nat : ∀ l : List Nat, ¬ List.Lex (· < ·) l l := by
  intro l
  induction l with
  | nil =>
    intro h
    cases h
  | cons a t ih =>
    intro h
    cases h with
    | cons h2 => exact ih h2
    | rel h2 => exact lt_irrefl _ h2

/-- Lexicographically related lists are distinct. -/
theorem lex_lt_ne {a b : List Nat} (h : List.Lex (· < ·) a b) : a ≠ b := by
  intro he
  subst he
  exact lex_irrefl_nat a h

/-- Concatenating blocks that are internally sorted and pairwise dominated
yields a lexicographically sorted list. -/
theorem pairwise_lex_flatMap (f : Nat → List (List Nat)) :
    ∀ l : List Nat, List.Pairwise (· < ·) l →
      (∀ i ∈ l, (f i).Pairwise (List.Lex (· < ·))) →
      (∀ i j, i < j → ∀ a ∈ f i, ∀ b ∈ f j, List.Lex (· < ·) a b) →
      (l.flatMap f).Pairwise (List.Lex (· < ·)) := by
  intro l
  induction l with
  | nil =>
    intro _ _ _
    simp
  | cons x t ih =>
    intro hpl hin hcross
    simp only [List.flatMap_cons]
    refine List.pairwise_append.2
      ⟨hin x (List.mem_cons_self x t),
       ih (List.pairwise_cons.1 hpl).2
         (fun i hi => hin i (List.mem_cons_of_mem _ hi)) hcross, ?cross⟩
    intro a ha b hb
    obtain ⟨j, hj, hbj⟩ := List.mem_flatMap.1 hb
    exact hcross x j ((List.pairwise_cons.1 hpl).1 j hj) a ha b hbj

/-- The recursive enumeration is sorted in strict lexicographic order. -/
theorem genComb_sorted_lex (n : Nat) :
    ∀ (r start : Nat), (genComb n start r).Pairwise (List.Lex (· < ·)) := by
  intro r
  induction r with
  | zero =>
    intro start
    simp [genComb]
  | succ r ih =>
    intro start
    simp only [genComb]
    apply pairwise_lex_flatMap
    · exact List.pairwise_lt_range' start (n - r - start)
    · intro i _
      exact (ih (i + 1)).map _ (fun a b hab => List.Lex.cons hab)
    · intro i j hij a ha b hb
      obtain ⟨a', -, rfl⟩ := List.mem_map.1 ha
      obtain ⟨b', -, rfl⟩ := List.mem_map.1 hb
      exact List.Lex.rel hij

/-! ### Claim C4 -/

/-- C4: for every `n` and `k`, `combinations n k` is empty when `k > n`, and
otherwise; its members are exactly the `k`-element strictly increasing lists
over `{0, …, n-1}` (each combination appearing exactly once), listed in
ascending lexicographic index order with no duplicates. -/
theorem combinations_enumeration (n k : Nat) :
    (k > n → combinations n k = []) ∧
    (∀ c, c ∈ combinations n k ↔
      c.length = k ∧ List.Pairwise (· < ·) c ∧ ∀ x ∈ c, x < n) ∧
    (combinations n k).Pairwise (List.Lex (· < ·)) ∧
    (combinations n k).Nodup := by
  have hmem : ∀ c, c ∈ combinations n k ↔
      c.length = k ∧ List.Pairwise (· < ·) c ∧ ∀ x ∈ c, x < n := by
    intro c
    unfold combinations
    by_cases hk : k > n
    · rw [if_pos hk]
      simp only [List.not_mem_nil, false_iff]
      rintro ⟨hlen, hpw, hlt⟩
      cases c with
      | nil =>
        simp only [List.length_nil] at hlen
        omega
      | cons i c' =>
        have hic : i < n := hlt i (List.mem_cons_self i c')
        obtain ⟨hhead, htail⟩ := List.pairwise_cons.1 hpw
        have := sorted_head_bound c' i hic htail
          (fun x hx => hlt x (List.mem_cons_of_mem _ hx)) hhead
        simp only [List.length_cons] at hlen
        omega
    · rw [if_neg hk, mem_genComb]
      constructor
      · rintro ⟨h1, h2, -, h4⟩
        exact ⟨h1, h2, h4⟩
      · rintro ⟨h1, h2, h4⟩
        exact ⟨h1, h2, fun x _ => Nat.zero_le x, h4⟩
  have hlex : (combinations n k).Pairwise (List.Lex (· < ·)) := by
    unfold combinations
    split
    · simp
    · exact genComb_sorted_lex n k 0
  exact ⟨fun hk => by unfold combinations; rw [if_pos hk], hmem, hlex,
    hlex.imp fun hab => lex_lt_ne hab⟩

/-- Witness for C4: `k` larger than `n` gives the empty enumeration. -/
theorem combinations_enumeration_witness : combinations 2 3 = [] :=
  (combinations_enumeration 2 3).1 (by decide)


/-- Witness for C9: three free variables on an empty system. -/
theorem unsupported_free_vars_give_none_witness :
    solveWithFreeVars [] [] [] 3 0 [] [] = none :=
  unsupported_free_vars_give_none [] [] [] 3 0 [] []
    (Or.inl ⟨by decide, by decide⟩)

/-! ### The feasible-range loop (claim C5) -/

/-- Being the minimum of `min b r :: L` is the same as being the minimum of
`b :: r :: L`. -/
theorem min_prepend {b r v : ℚ} {L : List ℚ}
    (hmem : v ∈ min b r :: L) (hle : ∀ y ∈ min b r :: L, v ≤ y) :
    v ∈ b :: r :: L ∧ ∀ y ∈ b :: r :: L, v ≤ y := by
  have hvm : v ≤ min b r := hle _ (List.mem_cons_self _ _)
  constructor
  · rcases List.mem_cons.1 hmem with he | hL
    · rcases min_choice b r with h | h
      · rw [h] at he
        rw [he]
        exact List.mem_cons_self _ _
      · rw [h] at he
        rw [he]
        exact List.mem_cons_of_mem _ (List.mem_cons_self _ _)
    · exact List.mem_cons_of_mem _ (List.mem_cons_of_mem _ hL)
  · intro y hy
    rcases List.mem_cons.1 hy with rfl | hy2
    · exact le_trans hvm (min_le_left _ _)
    · rcases List.mem_cons.1 hy2 with rfl | hy3
      · exact le_trans hvm (min_le_right _ _)
      · exact hle _ (List.mem_cons_of_mem _ hy3)

/-- Being the maximum of `max a r :: L` is the same as being the maximum of
`a :: r :: L`. -/
theorem max_prepend {a r v : ℚ} {L : List ℚ}
    (hmem : v ∈ max a r :: L) (hge : ∀ y ∈ max a r :: L, y ≤ v) :
    v ∈ a :: r :: L ∧ ∀ y ∈ a :: r :: L, y ≤ v := by
  have hvm : max a r ≤ v := hge _ (List.mem_cons_self _ _)
  constructor
  · rcases List.mem_cons.1 hmem with he | hL
    · rcases max_choice a r with h | h
      · rw [h] at he
        rw [he]
        exact List.mem_cons_self _ _
      · rw [h] at he
        rw [he]
        exact List.mem_cons_of_mem _ (List.mem_cons_self _ _)
    · exact List.mem_cons_of_mem _ (List.mem_cons_of_mem _ hL)
  · intro y hy
    rcases List.mem_cons.1 hy with rfl | hy2
    · exact le_trans (le_max_left _ _) hvm
    · rcases List.mem_cons.1 hy2 with rfl | hy3
      · exact le_trans (le_max_right _ _) hvm
      · exact hge _ (List.mem_cons_of_mem _ hy3)

/-- Full characterisation of the feasible-range loop over an arbitrary index
list: it fails exactly on a near-zero coefficient with negative baseline, and
otherwise returns the minimum of the `t_max` candidates and the maximum of
the `t_min` candidates. -/
theorem tRange_loop_spec (x0 coef : List ℚ) :
    ∀ (l : List Nat) (a b : ℚ),
      (List.foldlM (tRangeStep x0 coef) (a, b) l = none ↔
        ∃ i ∈ l, -(1 / 1000000000) ≤ coef.getD i 0 ∧
          coef.getD i 0 ≤ 1 / 1000000000 ∧ x0.getD i 0 < -(1 / 1000000000)) ∧
      ∀ p : ℚ × ℚ, List.foldlM (tRangeStep x0 coef) (a, b) l = some p →
        (p.2 ∈ b :: ratioUps x0 coef l ∧ ∀ y ∈ b :: ratioUps x0 coef l, p.2 ≤ y) ∧
        (p.1 ∈ a :: ratioDowns x0 coef l ∧ ∀ y ∈ a :: ratioDowns x0 coef l, y ≤ p.1) := by
  intro l
  induction l with
  | nil =>
    intro a b
    constructor
    · simp [List.foldlM_nil]
    · intro p hp
      simp only [List.foldlM_nil] at hp
      have hp2 : (a, b) = p := by
        simpa using hp
      subst hp2
      simp [ratioUps, ratioDowns]
  | cons i t ih =>
    intro a b
    by_cases hc1 : coef.getD i 0 > 1 / 1000000000
    · have hstep : tRangeStep x0 coef (a, b) i =
          some (a, min b (x0.getD i 0 / coef.getD i 0)) := by
        unfold tRangeStep
        rw [if_pos hc1]
      have hups : ratioUps x0 coef (i :: t) =
          (x0.getD i 0 / coef.getD i 0) :: ratioUps x0 coef t := by
        unfold ratioUps
        rw [List.filter_cons, if_pos (by simpa using hc1)]
        rfl
      have hdowns : ratioDowns x0 coef (i :: t) = ratioDowns x0 coef t := by
        unfold ratioDowns
        rw [List.filter_cons,
          if_neg (by simp only [decide_eq_true_eq]; intro h2; linarith)]
      constructor
      · rw [List.foldlM_cons, hstep]
        simp only [Option.bind_eq_bind, Option.some_bind]
        rw [(ih a (min b (x0.getD i 0 / coef.getD i 0))).1]
        constructor
        · rintro ⟨j, hj, hcond⟩
          exact ⟨j, List.mem_cons_of_mem _ hj, hcond⟩
        · rintro ⟨j, hj, hcond⟩
          rcases List.mem_cons.1 hj with rfl | hj2
          · exfalso
            have := hcond.2.1
            linarith
          · exact ⟨j, hj2, hcond⟩
      · intro p hp
        rw [List.foldlM_cons, hstep] at hp
        simp only [Option.bind_eq_bind, Option.some_bind] at hp
        obtain ⟨⟨hm2, hb2⟩, hdown⟩ :=
          (ih a (min b (x0.getD i 0 / coef.getD i 0))).2 p hp
        rw [hups, hdowns]
        exact ⟨min_prepend hm2 hb2, hdown⟩
    · by_cases hc2 : coef.getD i 0 < -(1 / 1000000000)
      · have hstep : tRangeStep x0 coef (a, b) i =
            some (max a (x0.getD i 0 / coef.getD i 0), b) := by
          unfold tRangeStep
          rw [if_neg hc1, if_pos hc2]
        have hups : ratioUps x0 coef (i :: t) = ratioUps x0 coef t := by
          unfold ratioUps
          rw [List.filter_cons, if_neg (by simpa using hc1)]
        have hdowns : ratioDowns x0 coef (i :: t) =
            (x0.getD i 0 / coef.getD i 0) :: ratioDowns x0 coef t := by
          unfold ratioDowns
          rw [List.filter_cons, if_pos (by simpa using hc2)]
          rfl
        constructor
        · rw [List.foldlM_cons, hstep]
          simp only [Option.bind_eq_bind, Option.some_bind]
          rw [(ih (max a (x0.getD i 0 / coef.getD i 0)) b).1]
          constructor
          · rintro ⟨j, hj, hcond⟩
            exact ⟨j, List.mem_cons_of_mem _ hj, hcond⟩
          · rintro ⟨j, hj, hcond⟩
            rcases List.mem_cons.1 hj with rfl | hj2
            · exfalso
              have := hcond.1
              linarith
            · exact ⟨j, hj2, hcond⟩
        · intro p hp
          rw [List.foldlM_cons, hstep] at hp
          simp only [Option.bind_eq_bind, Option.some_bind] at hp
          obtain ⟨hup, ⟨hm2, hb2⟩⟩ :=
            (ih (max a (x0.getD i 0 / coef.getD i 0)) b).2 p hp
          rw [hups, hdowns]
          exact ⟨hup, max_prepend hm2 hb2⟩
      · by_cases hc3 : x0.getD i 0 < -(1 / 1000000000)
        · have hstep : tRangeStep x0 coef (a, b) i = none := by
            unfold tRangeStep
            rw [if_neg hc1, if_neg hc2, if_pos hc3]
          constructor
          · rw [List.foldlM_cons, hstep]
            simp only [Option.bind_eq_bind, Option.none_bind]
            constructor
            · intro _
              exact ⟨i, List.mem_cons_self _ _, by linarith, by linarith, hc3⟩
            · intro _
              trivial
          · intro p hp
            rw [List.foldlM_cons, hstep] at hp
            simp at hp
        · have hstep : tRangeStep x0 coef (a, b) i = some (a, b) := by
            unfold tRangeStep
            rw [if_neg hc1, if_neg hc2, if_neg hc3]
          have hups : ratioUps x0 coef (i :: t) = ratioUps x0 coef t := by
            unfold ratioUps
            rw [List.filter_cons, if_neg (by simpa using hc1)]
          have hdowns : ratioDowns x0 coef (i :: t) = ratioDowns x0 coef t := by
            unfold ratioDowns
            rw [List.filter_cons, if_neg (by simpa using hc2)]
          constructor
          · rw [List.foldlM_cons, hstep]
            simp only [Option.bind_eq_bind, Option.some_bind]
            rw [(ih a b).1]
            constructor
            · rintro ⟨j, hj, hcond⟩
              exact ⟨j, List.mem_cons_of_mem _ hj, hcond⟩
            · rintro ⟨j, hj, hcond⟩
              rcases List.mem_cons.1 hj with rfl | hj2
              · exact absurd hcond.2.2 hc3
              · exact ⟨j, hj2, hcond⟩
          · intro p hp
            rw [List.foldlM_cons, hstep] at hp
            simp only [Option.bind_eq_bind, Option.some_bind] at hp
            rw [hups, hdowns]
            exact (ih a b).2 p hp

/-! ### Claim C5 -/

/-- C5: in the one-free-variable procedure the feasible range `[t_min, t_max]`
is derived from the constraints `x_basic(t) ≥ 0` and only from them — the
loop fails exactly when some index has a coefficient within the `1e-9`
tolerance of zero and `x0[i] < -1e-9`; otherwise `t_max` is the minimum of
`max_val` and the ratios `x0[i]/coef[i]` over the coefficients above `1e-9`,
and `t_min` is the maximum of `0` and the ratios over the coefficients below
`-1e-9`. -/
theorem tRange_feasible_range (x0 coef : List ℚ) (nc : Nat) (maxVal : Int) :
    (tRange x0 coef nc maxVal = none ↔
      ∃ i < nc, -(1 / 1000000000) ≤ coef.getD i 0 ∧
        coef.getD i 0 ≤ 1 / 1000000000 ∧ x0.getD i 0 < -(1 / 1000000000)) ∧
    ∀ tmin tmax, tRange x0 coef nc maxVal = some (tmin, tmax) →
      (tmax ∈ (maxVal : ℚ) :: ratioUps x0 coef (List.range nc) ∧
        ∀ y ∈ (maxVal : ℚ) :: ratioUps x0 coef (List.range nc), tmax ≤ y) ∧
      (tmin ∈ (0 : ℚ) :: ratioDowns x0 coef (List.range nc) ∧
        ∀ y ∈ (0 : ℚ) :: ratioDowns x0 coef (List.range nc), y ≤ tmin) := by
  have hs := tRange_loop_spec x0 coef (List.range nc) 0 (maxVal : ℚ)
  unfold tRange
  constructor
  · rw [hs.1]
    constructor
    · rintro ⟨i, hi, hcond⟩
      exact ⟨i, List.mem_range.1 hi, hcond⟩
    · rintro ⟨i, hi, hcond⟩
      exact ⟨i, List.mem_range.2 hi, hcond⟩
  · intro tmin tmax hp
    exact hs.2 (tmin, tmax) hp

/-- Witness for C5: a near-zero coefficient with negative baseline is
rejected as infeasible. -/
theorem tRange_feasible_range_witness : tRange [-1] [0] 1 5 = none :=
  (tRange_feasible_range [-1] [0] 1 5).1.2
    ⟨0, by norm_num, by norm_num, by norm_num, by norm_num⟩

/-! ### Exact-verification bridges -/

/-- The `verify_solution` loop from counter `k` succeeds iff every remaining
counter's press sum meets its target. -/
theorem verifyFrom_eq_true_iff (buttons : List (List Int)) (subset : List Nat)
    (presses : List Int) :
    ∀ (j : List Int) (k : Nat), verifyFrom buttons subset presses k j = true ↔
      ∀ i < j.length, pressSum buttons (k + i) subset presses = j.getD i 0 := by
  intro j
  induction j with
  | nil =>
    intro k
    simp [verifyFrom]
  | cons t rest ih =>
    intro k
    simp only [verifyFrom, Bool.and_eq_true, beq_iff_eq]
    rw [ih (k + 1)]
    constructor
    · rintro ⟨h0, hr⟩ i hi
      cases i with
      | zero => simpa using h0
      | succ i2 =>
        have h3 := hr i2 (by simpa using hi)
        rw [List.getD_cons_succ]
        rw [show k + (i2 + 1) = k + 1 + i2 by omega]
        exact h3
    · intro hall
      refine ⟨by simpa using hall 0 (by simp), ?tail⟩
      intro i hi
      have h3 := hall (i + 1) (by simpa using hi)
      rw [List.getD_cons_succ] at h3
      rw [show k + 1 + i = k + (i + 1) by omega]
      exact h3

/-- `verify_solution` succeeds iff every counter's press sum equals its
target joltage. -/
theorem verifySolution_eq_true_iff (joltages : List Int) (buttons : List (List Int))
    (subset : List Nat) (presses : List Int) :
    verifySolution joltages buttons subset presses = true ↔
      ∀ c < joltages.length, pressSum buttons c subset presses = joltages.getD c 0 := by
  unfold verifySolution
  rw [verifyFrom_eq_true_iff]
  simp

/-- The membership sum of `verify_solution` is the integer incidence row
dotted with the press vector. -/
theorem pressSum_eq_rowDotInt (buttons : List (List Int)) (counter : Nat)
    (subset : List Nat) (presses : List Int) :
    pressSum buttons counter subset presses = rowDotInt buttons counter subset presses := by
  unfold pressSum rowDotInt
  congr 1
  apply List.map_congr_left
  intro sp _
  split
  · rw [one_mul]
  · rw [zero_mul]

/-- The exact re-check of the determined branch succeeds iff the checked
row/target pairs all match. -/
theorem exactCheckGo_eq_true_iff (subset : List Nat) (sol : List Int) :
    ∀ (rows : List (List ℚ)) (ts : List Int),
      exactCheckGo subset sol rows ts = true ↔
        ∀ i < min rows.length ts.length,
          lineSum subset sol (rows.getD i []) = ts.getD i 0 := by
  intro rows
  induction rows with
  | nil =>
    intro ts
    simp [exactCheckGo]
  | cons row rrest ih =>
    intro ts
    cases ts with
    | nil => simp [exactCheckGo]
    | cons t trest =>
      simp only [exactCheckGo, Bool.and_eq_true, beq_iff_eq]
      rw [ih trest]
      constructor
      · rintro ⟨h0, hr⟩ i hi
        cases i with
        | zero => simpa using h0
        | succ i2 =>
          have h3 := hr i2 (by simp only [List.length_cons] at hi; omega)
          simpa using h3
      · intro hall
        refine ⟨by simpa using hall 0 (by simp), ?tail⟩
        intro i hi
        have h3 := hall (i + 1) (by simp only [List.length_cons]; omega)
        simpa using h3

/-- Length of the incidence matrix: one row per counter. -/
theorem fullA_length (m : Machine) : (fullA m).length = m.joltages.length := by
  simp [fullA]

/-- Row `c` of the incidence matrix, for a valid counter index. -/
theorem fullA_row (m : Machine) {c : Nat} (hc : c < m.joltages.length) :
    (fullA m).getD c [] =
      m.buttons.map fun btn => if (c : Int) ∈ btn then (1 : ℚ) else 0 := by
  unfold fullA
  rw [getD_of_lt _ _ _ (by simpa using hc)]
  rw [List.getElem_map]
  rw [List.getElem_range]

/-- The floating `> 0.5` test on an incidence entry coincides with the
integer membership test. -/
theorem fullA_entry_gt_half_iff (m : Machine) {c : Nat} (hc : c < m.joltages.length)
    (bi : Nat) :
    ((fullA m).getD c []).getD bi 0 > 1 / 2 ↔ (c : Int) ∈ m.buttons.getD bi [] := by
  rw [fullA_row m hc]
  rcases lt_or_ge bi m.buttons.length with hlt | hge
  · rw [getD_of_lt _ _ _ (by simpa using hlt), List.getElem_map,
      getD_of_lt _ _ _ hlt]
    by_cases hmem : (c : Int) ∈ m.buttons[bi]
    · rw [if_pos hmem]
      simp only [hmem, iff_true]
      norm_num
    · rw [if_neg hmem]
      simp only [hmem, iff_false]
      norm_num
  · rw [getD_of_ge _ _ _ (by simpa using hge), getD_of_ge _ _ _ hge]
    simp only [List.not_mem_nil, iff_false]
    norm_num

/-- A counter covered by no button: the default read at any index misses it
as well. -/
theorem uncovered_getD {buttons : List (List Int)} {c : Nat}
    (h : ∀ btn ∈ buttons, (c : Int) ∉ btn) (bi : Nat) :
    (c : Int) ∉ buttons.getD bi [] := by
  rcases lt_or_ge bi buttons.length with hlt | hge
  · rw [getD_of_lt _ _ _ hlt]
    exact h _ (List.getElem_mem hlt)
  · rw [getD_of_ge _ _ _ hge]
    simp

/-- The press sum of a counter covered by no button is zero. -/
theorem pressSum_uncovered {buttons : List (List Int)} {c : Nat}
    (h : ∀ btn ∈ buttons, (c : Int) ∉ btn) (subset : List Nat) (presses : List Int) :
    pressSum buttons c subset presses = 0 := by
  unfold pressSum
  apply List.sum_eq_zero
  intro x hx
  obtain ⟨sp, hsp, rfl⟩ := List.mem_map.1 hx
  rw [if_neg (uncovered_getD h sp.1)]

/-- The floating line sum of a counter covered by no button is zero. -/
theorem lineSum_uncovered {m : Machine} {c : Nat} (hc : c < m.joltages.length)
    (h : ∀ btn ∈ m.buttons, (c : Int) ∉ btn) (subset : List Nat) (sol : List Int) :
    lineSum subset sol ((fullA m).getD c []) = 0 := by
  unfold lineSum
  apply List.sum_eq_zero
  intro x hx
  obtain ⟨sp, hsp, rfl⟩ := List.mem_map.1 hx
  rw [if_neg]
  rw [fullA_entry_gt_half_iff m hc]
  exact uncovered_getD h sp.1

/-- An accepted direct-branch vector passed the exact re-check. -/
theorem directSolve_exactCheck {fa : List (List ℚ)} {b : List ℚ} {joltages : List Int}
    {subset : List Nat} {sol : List Int}
    (h : directSolve fa b joltages subset = some sol) :
    exactCheckGo subset sol fa joltages = true := by
  unfold directSolve at h
  split at h
  · cases h
  · split at h
    · cases h
    · split at h
      · next hcheck =>
        injection h with h2
        subst h2
        exact hcheck
      · cases h

/-! ### Nested running-minimum folds (the subset-size × subset search) -/

/-- A doubly nested running-minimum fold never increases the start value. -/
theorem nested_minStep_foldl_le_init (l2 : α → List β) (g : α → β → Option Int) :
    ∀ (l1 : List α) (init : Int),
      l1.foldl (fun best x => (l2 x).foldl (minStep (g x)) best) init ≤ init := by
  intro l1
  induction l1 with
  | nil =>
    intro init
    simp
  | cons x t ih =>
    intro init
    simp only [List.foldl_cons]
    exact le_trans (ih _) (minStep_foldl_le_init _ _ _)

/-- A doubly nested running-minimum fold is bounded by every candidate it
visits. -/
theorem nested_minStep_foldl_le (l2 : α → List β) (g : α → β → Option Int)
    {a : α} {bb : β} {c : Int} (hb : bb ∈ l2 a) (hc : g a bb = some c) :
    ∀ (l1 : List α), a ∈ l1 → ∀ init : Int,
      l1.foldl (fun best x => (l2 x).foldl (minStep (g x)) best) init ≤ c := by
  intro l1
  induction l1 with
  | nil =>
    intro ha
    cases ha
  | cons x t ih =>
    intro ha init
    simp only [List.foldl_cons]
    rcases List.mem_cons.1 ha with rfl | hm
    · exact le_trans (nested_minStep_foldl_le_init l2 g t _)
        (minStep_foldl_le_of_mem _ hb hc init)
    · exact ih hm _

/-- A common lower bound of the start value and all candidates bounds the
nested fold from below. -/
theorem nested_le_minStep_foldl (l2 : α → List β) (g : α → β → Option Int) (v : Int) :
    ∀ (l1 : List α) (init : Int), v ≤ init →
      (∀ a ∈ l1, ∀ bb ∈ l2 a, ∀ c, g a bb = some c → v ≤ c) →
      v ≤ l1.foldl (fun best x => (l2 x).foldl (minStep (g x)) best) init := by
  intro l1
  induction l1 with
  | nil =>
    intro init h0 _
    simpa using h0
  | cons x t ih =>
    intro init h0 h
    simp only [List.foldl_cons]
    apply ih
    · exact le_minStep_foldl _ _ _ _ h0
        (fun bb hbb c hc => h x (List.mem_cons_self x t) bb hbb c hc)
    · intro a ha bb hbb c hc
      exact h a (List.mem_cons_of_mem _ ha) bb hbb c hc

/-- A running-minimum fold over trials that all fail keeps the start value. -/
theorem minStep_foldl_all_none (g : α → Option Int) :
    ∀ (l : List α) (init : Int), (∀ a ∈ l, g a = none) →
      l.foldl (minStep g) init = init := by
  intro l
  induction l with
  | nil =>
    intro init _
    rfl
  | cons x t ih =>
    intro init h
    simp only [List.foldl_cons]
    have hx : minStep g init x = init := by
      unfold minStep
      rw [h x (List.mem_cons_self x t)]
    rw [hx]
    exact ih _ fun a ha => h a (List.mem_cons_of_mem _ ha)

/-! ### Claim C2 -/

/-- C2: the integer returned by `find_min_joltage_presses` is at most the
total press count of every verified candidate produced during the bounded
search over all subset sizes and subsets. -/
theorem answer_le_every_candidate (m : Machine) (size : Nat) (subset : List Nat)
    (c : Int) (h1 : 1 ≤ size)
    (h2 : size ≤ min (m.joltages.length + 2) m.buttons.length)
    (hsub : subset ∈ combinations m.buttons.length size)
    (hc : candidateFor m (fullA m) (bVec m) (maxJolt m) size subset = some c) :
    findMinJoltagePresses m ≤ c := by
  have hc0 : 0 ≤ c := candidateFor_nonneg hc
  have hsz : size ∈ List.range' 1 (min (m.joltages.length + 2) m.buttons.length) :=
    List.mem_range'_1.2 ⟨h1, by omega⟩
  have hle := nested_minStep_foldl_le
    (fun size => combinations m.buttons.length size)
    (fun size subset => candidateFor m (fullA m) (bVec m) (maxJolt m) size subset)
    hsub hc _ hsz 2147483647
  unfold findMinJoltagePresses
  split
  · omega
  · show (if (List.range' 1 (min (m.joltages.length + 2) m.buttons.length)).foldl
        (fun best size => (combinations m.buttons.length size).foldl
          (minStep (candidateFor m (fullA m) (bVec m) (maxJolt m) size)) best)
        2147483647 = 2147483647 then -1
      else (List.range' 1 (min (m.joltages.length + 2) m.buttons.length)).foldl
        (fun best size => (combinations m.buttons.length size).foldl
          (minStep (candidateFor m (fullA m) (bVec m) (maxJolt m) size)) best)
        2147483647) ≤ c
    split
    · omega
    · exact hle

/-- Witness for C2: the one-button machine with target 3 has the candidate
`[3]` of total 3, and the answer is bounded by it. -/
theorem answer_le_every_candidate_witness :
    findMinJoltagePresses ⟨[], [[0]], [3]⟩ ≤ 3 :=
  answer_le_every_candidate ⟨[], [[0]], [3]⟩ 1 [0] 3 (by decide) (by decide)
    (by decide) (by with_unfolding_all rfl)

/-! ### Infeasibility and the sentinel (claim C3) -/

/-- If every press vector fails the exact verifier, the one-free-variable
trials produce no candidate. -/
theorem d1Cand_none_of_verify_false {fa : List (List ℚ)} {b : List ℚ}
    {subset : List Nat} {maxVal : Int} {joltages : List Int}
    {buttons : List (List Int)}
    (h : ∀ x, verifySolution joltages buttons subset x = false) (freeIdx : Nat) :
    d1Cand fa b subset maxVal joltages buttons freeIdx = none := by
  unfold d1Cand
  split
  · next total solution heq => simp [h solution]
  · rfl

/-- If every press vector fails the exact verifier, the two-free-variable
trials produce no candidate. -/
theorem d2Cand_none_of_verify_false {fa : List (List ℚ)} {b : List ℚ}
    {subset : List Nat} {maxVal : Int} {joltages : List Int}
    {buttons : List (List Int)}
    (h : ∀ x, verifySolution joltages buttons subset x = false)
    (f1 f2 : Nat) (fv1 : Int) :
    d2Cand fa b subset maxVal joltages buttons f1 f2 fv1 = none := by
  unfold d2Cand
  split
  · next st ss heq => simp [h _]
  · rfl

/-- If every press vector fails the exact verifier, `solve_with_free_vars`
returns `None`. -/
theorem solveWithFreeVars_none_of_verify_false {fa : List (List ℚ)} {b : List ℚ}
    {subset : List Nat} {joltages : List Int} {buttons : List (List Int)}
    (numFree : Nat) (maxVal : Int)
    (h : ∀ x, verifySolution joltages buttons subset x = false) :
    solveWithFreeVars fa b subset numFree maxVal joltages buttons = none := by
  unfold solveWithFreeVars
  split
  · rfl
  · by_cases hn1 : numFree = 1
    · rw [if_pos hn1,
        minStep_foldl_all_none (d1Cand fa b subset maxVal joltages buttons)
          (List.range subset.length) 2147483647
          (fun a _ => d1Cand_none_of_verify_false h a)]
      rfl
    · by_cases hn2 : numFree = 2
      · rw [if_neg hn1, if_pos hn2]
        have hinner : ∀ (f1 f2 : Nat) (best : Int),
            (intRange0 (min maxVal 100)).foldl
              (minStep (d2Cand fa b subset maxVal joltages buttons f1 f2)) best = best :=
          fun f1 f2 best => minStep_foldl_all_none _ _ _
            (fun a _ => d2Cand_none_of_verify_false h f1 f2 a)
        simp only [hinner, foldl_const]
        rfl
      · rw [if_neg hn1, if_neg hn2]
        rfl

/-- A counter with non-zero target covered by no button kills every
candidate of the search. -/
theorem candidateFor_uncovered_none {m : Machine} {c : Nat}
    (hc : c < m.joltages.length) (ht : m.joltages.getD c 0 ≠ 0)
    (hunc : ∀ btn ∈ m.buttons, (c : Int) ∉ btn) (size : Nat) (subset : List Nat) :
    candidateFor m (fullA m) (bVec m) (maxJolt m) size subset = none := by
  unfold candidateFor
  split
  · rcases hds : directSolve (fullA m) (bVec m) m.joltages subset with _ | sol
    · rfl
    · exfalso
      have hcheck := directSolve_exactCheck hds
      rw [exactCheckGo_eq_true_iff] at hcheck
      have h3 := hcheck c (by rw [fullA_length]; omega)
      rw [lineSum_uncovered hc hunc] at h3
      exact ht h3.symm
  · apply solveWithFreeVars_none_of_verify_false
    intro x
    cases hvx : verifySolution m.joltages m.buttons subset x with
    | false => rfl
    | true =>
      exfalso
      rw [verifySolution_eq_true_iff] at hvx
      have h3 := hvx c hc
      rw [pressSum_uncovered hunc] at h3
      exact ht h3.symm

/-- The running minimum of the whole bounded search stays at the sentinel
exactly when every candidate is at least the sentinel. -/
theorem searchFold_max_iff (m : Machine) :
    ((List.range' 1 (min (m.joltages.length + 2) m.buttons.length)).foldl
      (fun best size => (combinations m.buttons.length size).foldl
        (minStep (candidateFor m (fullA m) (bVec m) (maxJolt m) size)) best)
      2147483647 = 2147483647) ↔
    ∀ size subset t, 1 ≤ size →
      size ≤ min (m.joltages.length + 2) m.buttons.length →
      subset ∈ combinations m.buttons.length size →
      candidateFor m (fullA m) (bVec m) (maxJolt m) size subset = some t →
      2147483647 ≤ t := by
  constructor
  · intro hF size subset t h1 h2 hsub hc
    have hmem : size ∈ List.range' 1 (min (m.joltages.length + 2) m.buttons.length) :=
      List.mem_range'_1.2 ⟨h1, by omega⟩
    have hle := nested_minStep_foldl_le (combinations m.buttons.length)
      (candidateFor m (fullA m) (bVec m) (maxJolt m)) hsub hc _ hmem 2147483647
    omega
  · intro hall
    have hub := nested_minStep_foldl_le_init (combinations m.buttons.length)
      (candidateFor m (fullA m) (bVec m) (maxJolt m))
      (List.range' 1 (min (m.joltages.length + 2) m.buttons.length)) 2147483647
    have hlb := nested_le_minStep_foldl (combinations m.buttons.length)
      (candidateFor m (fullA m) (bVec m) (maxJolt m)) 2147483647
      (List.range' 1 (min (m.joltages.length + 2) m.buttons.length)) 2147483647
      (le_refl _)
      (fun a ha bb hbb c hc => by
        have ha2 := List.mem_range'_1.1 ha
        exact hall a bb c ha2.1 (by omega) hbb hc)
    omega

/-- The search fold is non-negative. -/
theorem searchFold_nonneg (m : Machine) :
    0 ≤ (List.range' 1 (min (m.joltages.length + 2) m.buttons.length)).foldl
      (fun best size => (combinations m.buttons.length size).foldl
        (minStep (candidateFor m (fullA m) (bVec m) (maxJolt m) size)) best)
      2147483647 :=
  nested_le_minStep_foldl (combinations m.buttons.length)
    (candidateFor m (fullA m) (bVec m) (maxJolt m)) 0
    (List.range' 1 (min (m.joltages.length + 2) m.buttons.length)) 2147483647
    (by omega) (fun a _ bb _ c hc => candidateFor_nonneg hc)

/-! ### Claim C3 -/

/-- C3 counterexample: the machine with no buttons and single target joltage
5 has a counter with non-zero target covered by no button, yet the solver
returns 0 (the degenerate early return), not the infeasible sentinel −1. -/
theorem infeasible_sentinel_counterexample :
    (∃ c < ([5] : List Int).length, ([5] : List Int).getD c 0 ≠ 0 ∧
      ∀ btn ∈ ([] : List (List Int)), (c : Int) ∉ btn) ∧
    findMinJoltagePresses ⟨[], [], [5]⟩ = 0 := by
  constructor
  · exact ⟨0, by decide, by decide, by simp⟩
  · rfl

/-- C3 (amended): for a machine with at least one button and at least one
counter, (i) a counter with non-zero target covered by no button forces the
answer −1, and (ii) the solver returns −1 exactly when every verified
candidate of the bounded search has total at least 2147483647 (`i32::MAX`) —
in particular when no subset yields a verified candidate at all, but also
when the minimal candidate total happens to equal the `i32::MAX` sentinel.
Machines with no buttons or no counters return 0, not −1. -/
theorem infeasible_sentinel_amended (m : Machine)
    (hb : m.buttons.length ≠ 0) (hj : m.joltages.length ≠ 0) :
    ((∃ c < m.joltages.length, m.joltages.getD c 0 ≠ 0 ∧
        ∀ btn ∈ m.buttons, (c : Int) ∉ btn) →
      findMinJoltagePresses m = -1) ∧
    (findMinJoltagePresses m = -1 ↔
      ∀ size subset t, 1 ≤ size →
        size ≤ min (m.joltages.length + 2) m.buttons.length →
        subset ∈ combinations m.buttons.length size →
        candidateFor m (fullA m) (bVec m) (maxJolt m) size subset = some t →
        2147483647 ≤ t) := by
  have hcond : ¬(m.buttons.length = 0 ∨ m.joltages.length = 0) := by
    push_neg
    exact ⟨hb, hj⟩
  have hiff : findMinJoltagePresses m = -1 ↔
      ∀ size subset t, 1 ≤ size →
        size ≤ min (m.joltages.length + 2) m.buttons.length →
        subset ∈ combinations m.buttons.length size →
        candidateFor m (fullA m) (bVec m) (maxJolt m) size subset = some t →
        2147483647 ≤ t := by
    unfold findMinJoltagePresses
    rw [if_neg hcond]
    show (if (List.range' 1 (min (m.joltages.length + 2) m.buttons.length)).foldl
        (fun best size => (combinations m.buttons.length size).foldl
          (minStep (candidateFor m (fullA m) (bVec m) (maxJolt m) size)) best)
        2147483647 = 2147483647 then -1
      else (List.range' 1 (min (m.joltages.length + 2) m.buttons.length)).foldl
        (fun best size => (combinations m.buttons.length size).foldl
          (minStep (candidateFor m (fullA m) (bVec m) (maxJolt m) size)) best)
        2147483647) = -1 ↔ _
    rw [← searchFold_max_iff m]
    have h0 := searchFold_nonneg m
    constructor
    · intro hres
      by_contra hF
      rw [if_neg hF] at hres
      omega
    · intro hF
      rw [if_pos hF]
  refine ⟨?uncov, hiff⟩
  rintro ⟨c, hc, ht, hunc⟩
  apply hiff.2
  intro size subset t _ _ _ hcand
  rw [candidateFor_uncovered_none hc ht hunc size subset] at hcand
  cases hcand

/-- Witness for C3 (amended): one button covering only the out-of-range
counter 1 leaves counter 0 uncovered, and the machine is infeasible. -/
theorem infeasible_sentinel_amended_witness :
    findMinJoltagePresses ⟨[], [[1]], [5]⟩ = -1 :=
  (infeasible_sentinel_amended ⟨[], [[1]], [5]⟩ (by decide) (by decide)).1
    ⟨0, by decide, by decide, by decide⟩

/-! ### Claim C1 -/

/-- For a valid counter index, the floating row sum of the exact re-check
equals the integer membership sum of the verifier. -/
theorem lineSum_eq_pressSum (m : Machine) {c : Nat} (hc : c < m.joltages.length)
    (subset : List Nat) (sol : List Int) :
    lineSum subset sol ((fullA m).getD c []) = pressSum m.buttons c subset sol := by
  unfold lineSum pressSum
  congr 1
  apply List.map_congr_left
  intro sp _
  by_cases hmem : (c : Int) ∈ m.buttons.getD sp.1 []
  · rw [if_pos ((fullA_entry_gt_half_iff m hc sp.1).2 hmem), if_pos hmem]
  · rw [if_neg (fun hgt => hmem ((fullA_entry_gt_half_iff m hc sp.1).1 hgt)),
      if_neg hmem]

/-- C1: for every machine and every candidate press vector the solver
accepts (lets compete for the global minimum), the vector satisfies
`A_subset · x = b` exactly over the integers — every counter's target is met
with no tolerance — and every component is a non-negative integer. -/
theorem accepted_solution_exact_nonneg (m : Machine) (subset : List Nat)
    (x : List Int) (h : acceptedSolution m subset x) :
    (∀ v ∈ x, 0 ≤ v) ∧
    ∀ c < m.joltages.length, rowDotInt m.buttons c subset x = m.joltages.getD c 0 := by
  rcases h with hdir | ⟨freeIdx, total, hsolve, hver⟩ |
    ⟨f1, f2, fv1, subTotal, subSol, hfv, hsolve, hx, hver⟩
  · constructor
    · exact directSolve_nonneg hdir
    · intro c hc
      have hcheck := directSolve_exactCheck hdir
      rw [exactCheckGo_eq_true_iff] at hcheck
      have h3 := hcheck c (by rw [fullA_length]; omega)
      rw [lineSum_eq_pressSum m hc, pressSum_eq_rowDotInt] at h3
      exact h3
  · constructor
    · exact (solveOneFreeVar_nonneg hsolve).2
    · intro c hc
      rw [verifySolution_eq_true_iff] at hver
      rw [← pressSum_eq_rowDotInt]
      exact hver c hc
  · constructor
    · subst hx
      intro v hv
      unfold insertFv at hv
      obtain ⟨i, hi, rfl⟩ := List.mem_map.1 hv
      split
      · exact hfv
      · exact nonneg_getD (solveOneFreeVar_nonneg hsolve).2 _
    · intro c hc
      rw [verifySolution_eq_true_iff] at hver
      rw [← pressSum_eq_rowDotInt]
      exact hver c hc

/-- Witness for C1: the direct branch accepts `[3]` on the one-button
machine, and the accepted vector is exact and non-negative. -/
theorem accepted_solution_exact_nonneg_witness :
    acceptedSolution ⟨[], [[0]], [3]⟩ [0] [3] ∧
    ((∀ v ∈ ([3] : List Int), 0 ≤ v) ∧
      ∀ c < ([3] : List Int).length,
        rowDotInt [[0]] c [0] [3] = ([3] : List Int).getD c 0) := by
  have hacc : acceptedSolution ⟨[], [[0]], [3]⟩ [0] [3] :=
    Or.inl (by with_unfolding_all rfl)
  exact ⟨hacc, accepted_solution_exact_nonneg ⟨[], [[0]], [3]⟩ [0] [3] hacc⟩

/-! ### Out-of-range button entries (claim C10) -/

/-- Members of a `combinations` result are valid button indices. -/
theorem combinations_mem_lt {n k : Nat} {c : List Nat} (h : c ∈ combinations n k) :
    ∀ x ∈ c, x < n := by
  unfold combinations at h
  split at h
  · cases h
  · exact ((mem_genComb n k 0 c).1 h).2.2.2

/-- The verifier's per-counter sum only consults membership of valid counter
indices in buttons named by the subset. -/
theorem pressSum_congr {buttons1 buttons2 : List (List Int)} {nc : Nat}
    (hmem : ∀ bi < buttons1.length, ∀ c < nc,
      ((c : Int) ∈ buttons1.getD bi [] ↔ (c : Int) ∈ buttons2.getD bi []))
    {c : Nat} (hc : c < nc) {subset : List Nat}
    (hvalid : ∀ bi ∈ subset, bi < buttons1.length) (presses : List Int) :
    pressSum buttons1 c subset presses = pressSum buttons2 c subset presses := by
  unfold pressSum
  congr 1
  apply List.map_congr_left
  intro sp hsp
  obtain ⟨bi, pv⟩ := sp
  have hbi : bi < buttons1.length := hvalid bi (List.of_mem_zip hsp).1
  have hiff := hmem bi hbi c hc
  by_cases hm : (c : Int) ∈ buttons1.getD bi []
  · rw [if_pos hm, if_pos (hiff.1 hm)]
  · rw [if_neg hm, if_neg fun h2 => hm (hiff.2 h2)]

/-- `solve_with_free_vars` depends on the button lists only through the
verifier. -/
theorem solveWithFreeVars_buttons_congr (fa : List (List ℚ)) (b : List ℚ)
    (subset : List Nat) (numFree : Nat) (maxVal : Int) (joltages : List Int)
    {buttons1 buttons2 : List (List Int)}
    (hver : verifySolution joltages buttons1 subset =
      verifySolution joltages buttons2 subset) :
    solveWithFreeVars fa b subset numFree maxVal joltages buttons1 =
      solveWithFreeVars fa b subset numFree maxVal joltages buttons2 := by
  unfold solveWithFreeVars d1Cand d2Cand
  rw [hver]

/-- The incidence matrix only records membership of valid counter indices. -/
theorem fullA_congr {m1 m2 : Machine} (hj : m1.joltages = m2.joltages)
    (hn : m1.buttons.length = m2.buttons.length)
    (hmem : ∀ bi < m1.buttons.length, ∀ c < m1.joltages.length,
      ((c : Int) ∈ m1.buttons.getD bi [] ↔ (c : Int) ∈ m2.buttons.getD bi [])) :
    fullA m1 = fullA m2 := by
  unfold fullA
  rw [← hj]
  apply List.map_congr_left
  intro c hcr
  have hc := List.mem_range.1 hcr
  apply List.ext_getElem
  · simp [hn]
  · intro bi h1 h2
    simp only [List.getElem_map]
    have hb1 : bi < m1.buttons.length := by simpa using h1
    have hiff := hmem bi hb1 c hc
    rw [getD_of_lt _ _ _ hb1, getD_of_lt _ _ _ (by omega : bi < m2.buttons.length)]
      at hiff
    by_cases hm : (c : Int) ∈ m1.buttons[bi]
    · rw [if_pos hm, if_pos (hiff.1 hm)]
    · rw [if_neg hm, if_neg fun h2m => hm (hiff.2 h2m)]

/-! ### Claim C10 -/

/-- C10: button entries naming a counter index outside `0..num_counters`
have no effect on the part-2 answer — two machines with the same joltages,
the same number of buttons, and buttons agreeing on membership of all valid
counter indices get the same result, so adding or removing out-of-range
indices changes nothing. -/
theorem out_of_range_indices_irrelevant (m1 m2 : Machine)
    (hj : m1.joltages = m2.joltages)
    (hn : m1.buttons.length = m2.buttons.length)
    (hmem : ∀ bi < m1.buttons.length, ∀ c < m1.joltages.length,
      ((c : Int) ∈ m1.buttons.getD bi [] ↔ (c : Int) ∈ m2.buttons.getD bi [])) :
    findMinJoltagePresses m1 = findMinJoltagePresses m2 := by
  have hfa : fullA m1 = fullA m2 := fullA_congr hj hn hmem
  have hb : bVec m1 = bVec m2 := by
    unfold bVec
    rw [hj]
  have hmj : maxJolt m1 = maxJolt m2 := by
    unfold maxJolt
    rw [hj]
  have hver : ∀ subset : List Nat, (∀ bi ∈ subset, bi < m1.buttons.length) →
      verifySolution m1.joltages m1.buttons subset =
        verifySolution m1.joltages m2.buttons subset := by
    intro subset hvalid
    funext presses
    rw [Bool.eq_iff_iff, verifySolution_eq_true_iff, verifySolution_eq_true_iff]
    constructor
    · intro hall c hc
      rw [← pressSum_congr hmem hc hvalid]
      exact hall c hc
    · intro hall c hc
      rw [pressSum_congr hmem hc hvalid]
      exact hall c hc
  have hcand : ∀ size subset, subset ∈ combinations m1.buttons.length size →
      candidateFor m1 (fullA m1) (bVec m1) (maxJolt m1) size subset =
        candidateFor m2 (fullA m1) (bVec m1) (maxJolt m1) size subset := by
    intro size subset hsub
    have hvalid : ∀ bi ∈ subset, bi < m1.buttons.length := combinations_mem_lt hsub
    unfold candidateFor
    rw [← hj]
    refine if_congr Iff.rfl rfl ?free
    exact solveWithFreeVars_buttons_congr _ _ _ _ _ _ (hver subset hvalid)
  unfold findMinJoltagePresses
  rw [← hj, ← hn, ← hfa, ← hb, ← hmj]
  have hF : (List.range' 1 (min (m1.joltages.length + 2) m1.buttons.length)).foldl
      (fun best size => (combinations m1.buttons.length size).foldl
        (minStep (candidateFor m1 (fullA m1) (bVec m1) (maxJolt m1) size)) best)
      2147483647 =
    (List.range' 1 (min (m1.joltages.length + 2) m1.buttons.length)).foldl
      (fun best size => (combinations m1.buttons.length size).foldl
        (minStep (candidateFor m2 (fullA m1) (bVec m1) (maxJolt m1) size)) best)
      2147483647 := by
    apply List.foldl_ext
    intro acc size hsize
    apply List.foldl_ext
    intro acc2 subset hsub
    unfold minStep
    rw [hcand size subset hsub]
  rw [hF]

/-- Witness for C10: adding the out-of-range index 7 to the only button does
not change the answer. -/
theorem out_of_range_indices_irrelevant_witness :
    findMinJoltagePresses ⟨[], [[0]], [3]⟩ = findMinJoltagePresses ⟨[], [[0, 7]], [3]⟩ :=
  out_of_range_indices_irrelevant ⟨[], [[0]], [3]⟩ ⟨[], [[0, 7]], [3]⟩ rfl rfl
    (by decide)

/-! ### Triple running-minimum folds (the two-free-variable search) -/

/-- A nested running-minimum fold is the start value or one of its
candidates. -/
theorem nested_minStep_foldl_cases (l2 : α → List β) (g : α → β → Option Int) :
    ∀ (l1 : List α) (init : Int),
      l1.foldl (fun best x => (l2 x).foldl (minStep (g x)) best) init = init ∨
      ∃ a ∈ l1, ∃ bb ∈ l2 a,
        g a bb = some (l1.foldl (fun best x => (l2 x).foldl (minStep (g x)) best) init) := by
  intro l1
  induction l1 with
  | nil =>
    intro init
    exact Or.inl rfl
  | cons x t ih =>
    intro init
    simp only [List.foldl_cons]
    rcases ih ((l2 x).foldl (minStep (g x)) init) with h | ⟨a, ha, bb, hbb, hc⟩
    · rw [h]
      rcases minStep_foldl_cases (g x) (l2 x) init with h2 | ⟨bb, hbb, hc⟩
      · exact Or.inl h2
      · exact Or.inr ⟨x, List.mem_cons_self x t, bb, hbb, hc⟩
    · exact Or.inr ⟨a, List.mem_cons_of_mem _ ha, bb, hbb, hc⟩

/-- A triply nested running-minimum fold never increases the start value. -/
theorem triple_minStep_foldl_le_init (l2 : α → List β) (l3 : α → β → List γ)
    (g : α → β → γ → Option Int) :
    ∀ (l1 : List α) (init : Int),
      l1.foldl (fun best x => (l2 x).foldl
        (fun b2 y => (l3 x y).foldl (minStep (g x y)) b2) best) init ≤ init := by
  intro l1
  induction l1 with
  | nil =>
    intro init
    simp
  | cons x t ih =>
    intro init
    simp only [List.foldl_cons]
    exact le_trans (ih _) (nested_minStep_foldl_le_init (l3 x) (g x) (l2 x) init)

/-- A triply nested running-minimum fold is bounded by every candidate it
visits. -/
theorem triple_minStep_foldl_le (l2 : α → List β) (l3 : α → β → List γ)
    (g : α → β → γ → Option Int) {a : α} {bb : β} {cc : γ} {c : Int}
    (hb : bb ∈ l2 a) (hcc : cc ∈ l3 a bb) (hc : g a bb cc = some c) :
    ∀ (l1 : List α), a ∈ l1 → ∀ init : Int,
      l1.foldl (fun best x => (l2 x).foldl
        (fun b2 y => (l3 x y).foldl (minStep (g x y)) b2) best) init ≤ c := by
  intro l1
  induction l1 with
  | nil =>
    intro ha
    cases ha
  | cons x t ih =>
    intro ha init
    simp only [List.foldl_cons]
    rcases List.mem_cons.1 ha with rfl | hm
    · exact le_trans (triple_minStep_foldl_le_init l2 l3 g t _)
        (nested_minStep_foldl_le (l3 a) (g a) hcc hc (l2 a) hb init)
    · exact ih hm _

/-- A triply nested running-minimum fold is the start value or one of its
candidates. -/
theorem triple_minStep_foldl_cases (l2 : α → List β) (l3 : α → β → List γ)
    (g : α → β → γ → Option Int) :
    ∀ (l1 : List α) (init : Int),
      l1.foldl (fun best x => (l2 x).foldl
        (fun b2 y => (l3 x y).foldl (minStep (g x y)) b2) best) init = init ∨
      ∃ a ∈ l1, ∃ bb ∈ l2 a, ∃ cc ∈ l3 a bb,
        g a bb cc = some (l1.foldl (fun best x => (l2 x).foldl
          (fun b2 y => (l3 x y).foldl (minStep (g x y)) b2) best) init) := by
  intro l1
  induction l1 with
  | nil =>
    intro init
    exact Or.inl rfl
  | cons x t ih =>
    intro init
    simp only [List.foldl_cons]
    rcases ih ((l2 x).foldl (fun b2 y => (l3 x y).foldl (minStep (g x y)) b2) init)
      with h | ⟨a, ha, bb, hbb, cc, hcc, hc⟩
    · rw [h]
      rcases nested_minStep_foldl_cases (l3 x) (g x) (l2 x) init
        with h2 | ⟨bb, hbb, cc, hcc, hc⟩
      · exact Or.inl h2
      · exact Or.inr ⟨x, List.mem_cons_self x t, bb, hbb, cc, hcc, hc⟩
    · exact Or.inr ⟨a, List.mem_cons_of_mem _ ha, bb, hbb, cc, hcc, hc⟩

/-! ### Claim C6 -/

/-- C6: in the two-free-variable case the first free variable is enumerated
over exactly the integers 0 through `min(max_joltage, 100)` (with
`max_joltage` the machine's maximum target joltage); each trial subtracts
its contribution from `b`, solves the remainder as a one-free-variable
subproblem over the remaining subset, and its cost plus the sub-solution's
cost competes for the best verified total: the returned value is attained by
such a trial and is at most the total of every such trial. -/
theorem d2_enumeration_minimal (m : Machine) (subset : List Nat) (v : Int)
    (hlen : subset.length = m.joltages.length + 2)
    (hv : solveWithFreeVars (fullA m) (bVec m) subset 2 (maxJolt m)
      m.joltages m.buttons = some v) :
    (∃ f1 f2 fv1 subTotal subSol, f1 < f2 ∧ f2 < subset.length ∧
      0 ≤ fv1 ∧ fv1 ≤ min (maxJolt m) 100 ∧
      solveOneFreeVar (fullA m) (bAdj (fullA m) (bVec m) subset f1 fv1)
        (subSubset subset f1) (f2 - 1) (maxJolt m) = some (subTotal, subSol) ∧
      verifySolution m.joltages m.buttons subset
        (insertFv subset.length f1 fv1 subSol) = true ∧
      v = subTotal + fv1) ∧
    (∀ f1 f2 fv1 subTotal subSol, f1 < f2 → f2 < subset.length →
      0 ≤ fv1 → fv1 ≤ min (maxJolt m) 100 →
      solveOneFreeVar (fullA m) (bAdj (fullA m) (bVec m) subset f1 fv1)
        (subSubset subset f1) (f2 - 1) (maxJolt m) = some (subTotal, subSol) →
      verifySolution m.joltages m.buttons subset
        (insertFv subset.length f1 fv1 subSol) = true →
      v ≤ subTotal + fv1) := by
  have hbl : (bVec m).length = m.joltages.length := by
    simp [bVec]
  unfold solveWithFreeVars at hv
  rw [if_neg (by rw [hbl]; omega), if_neg (by omega : ¬(2 = 1)), if_pos rfl] at hv
  obtain ⟨hveq, hne⟩ := sentinel_eq hv
  subst hveq
  constructor
  · rcases triple_minStep_foldl_cases
      (fun f1 => List.range' (f1 + 1) (subset.length - (f1 + 1)))
      (fun f1 f2 => intRange0 (min (maxJolt m) 100))
      (d2Cand (fullA m) (bVec m) subset (maxJolt m) m.joltages m.buttons)
      (List.range subset.length) 2147483647 with h | ⟨f1, hf1, f2, hf2, fv1, hfv1, hg⟩
    · exact absurd h hne
    · have hf1b := List.mem_range.1 hf1
      have hf2b := List.mem_range'_1.1 hf2
      have hfvb := mem_intRange0.1 hfv1
      unfold d2Cand at hg
      split at hg
      · next subTotal subSol heq =>
        split at hg
        · next hverify =>
          injection hg with hg2
          exact ⟨f1, f2, fv1, subTotal, subSol, by omega, by omega, hfvb.1, hfvb.2,
            heq, hverify, hg2.symm⟩
        · cases hg
      · cases hg
  · intro f1 f2 fv1 subTotal subSol h1 h2 h3 h4 hsolve hverify
    have hg : d2Cand (fullA m) (bVec m) subset (maxJolt m) m.joltages m.buttons
        f1 f2 fv1 = some (subTotal + fv1) := by
      unfold d2Cand
      rw [hsolve]
      simp only [if_pos hverify]
    exact triple_minStep_foldl_le
      (fun f1 => List.range' (f1 + 1) (subset.length - (f1 + 1)))
      (fun f1 f2 => intRange0 (min (maxJolt m) 100))
      (d2Cand (fullA m) (bVec m) subset (maxJolt m) m.joltages m.buttons)
      (List.mem_range'_1.2 ⟨by omega, by omega⟩) (mem_intRange0.2 ⟨h3, h4⟩) hg
      (List.range subset.length) (List.mem_range.2 (by omega)) 2147483647

/-- Witness for C6: three identical buttons on one counter with target 2; the
trial with `f1 = 0`, `f2 = 1`, `fv1 = 2` is verified with sub-total 0, and
the returned value 2 is bounded by its total. -/
theorem d2_enumeration_minimal_witness : (2 : Int) ≤ 0 + 2 :=
  (d2_enumeration_minimal ⟨[], [[0], [0], [0]], [2]⟩ [0, 1, 2] 2 (by decide)
      (by with_unfolding_all rfl)).2 0 1 2 0 [0, 0] (by decide) (by decide)
    (by decide) (by decide) (by with_unfolding_all rfl) (by decide)

end Day10
